import Mathlib

/-!
Verification of the GCI-detection repository (2022-ICASSP notebook).

The only source file is the notebook `GCI_detection.ipynb`; it sets the
hyper-parameters and calls the helper module `utils` (`ut.prep4input`,
`ut.evaluate_model`, `ut.detect`, `Pitchmark`) whose code is not part of
the visible source.  The constants below are taken verbatim from the
notebook's settings cell; the helper operations are modelled from the
specification's component descriptions, as noted on each definition.
Pitch-mark times are rationals (seconds).
-/

namespace GCI

/-- Sampling frequency of the signal, from the notebook settings cell
(`freq_samp = 16000`). -/
def freq_samp : ℕ := 16000

/-- Window length in seconds, from the notebook (`win_len = 0.010`). -/
def win_len : ℚ := 1/100

/-- Hop length in seconds, from the notebook (`hop_len = 0.002`). -/
def hop_len : ℚ := 1/500

/-- Number of time steps, from the notebook (`n_timesteps = 900`). -/
def n_timesteps : ℕ := 900

/-- Padding value for short signals, from the notebook (`pad_value = 0`). -/
def pad_value : ℤ := 0

/-- Absolute distance threshold in seconds used to detect shifted GCIs,
from the notebook (`abs_dist = 0.00025`). -/
def abs_dist : ℚ := 1/4000

/-- Relative distance threshold as an integer percentage of the current T0,
from the notebook (`rel_dist = 10`). -/
def rel_dist : ℚ := 10

/-- Minimum T0 for the relative-distance comparison, from the notebook
(`min_t0 = 0.02`). -/
def min_t0 : ℚ := 1/50

/-- Learning rate from the notebook (`learning_rate = 0.001`). -/
def learning_rate : ℚ := 1/1000

/-- Absolute value on the rationals, used for timing distances. -/
def absQ (x : ℚ) : ℚ := if x < 0 then -x else x

/-- Modelled from the spec: the local fundamental period of ground-truth
mark `i` is the distance to the next ground-truth mark, clipped below by
`min_t0`; the last mark, having no successor, gets `min_t0` (the clip
value).  The `utils` evaluation code is not in the visible source. -/
def localT0 (gt : List ℚ) (i : ℕ) : ℚ :=
  if i + 1 < gt.length then max (gt.getD (i+1) 0 - gt.getD i 0) min_t0 else min_t0

/-- Modelled from the spec: a predicted mark `p` qualifies for ground-truth
mark `i` when it lies within `abs_dist` seconds OR within `rel_dist`
percent of the local T0 (whichever bound is looser). -/
def withinTol (gt : List ℚ) (i : ℕ) (p : ℚ) : Bool :=
  decide (absQ (p - gt.getD i 0) ≤ abs_dist) ||
  decide (absQ (p - gt.getD i 0) ≤ rel_dist / 100 * localT0 gt i)

/-- Index selection by minimal key: fold that keeps the index with the
smaller key, preferring the earlier one on ties. -/
def selMin {α : Type} [LinearOrder α] (d : ℕ → α) (l : List ℕ) (b : ℕ) : ℕ :=
  l.foldl (fun x i => if d i < d x then i else x) b

/-- Modelled from the spec: nearest-neighbor assignment — the index of the
ground-truth mark closest in time to the predicted mark `p` (the earliest
such index on a tie, a choice the spec leaves open). -/
def nearestIdx (gt : List ℚ) (p : ℚ) : ℕ :=
  selMin (fun i => absQ (p - gt.getD i 0)) (List.range gt.length) 0

/-- Modelled from the spec: the predicted marks assigned to ground-truth
mark `i` by nearest-neighbor matching that also qualify by the
absolute/relative distance rule. -/
def detTimes (gt pred : List ℚ) (i : ℕ) : List ℚ :=
  pred.filter (fun p => nearestIdx gt p == i && withinTol gt i p)

/-- Number of qualifying detections for ground-truth mark `i`. -/
def detCount (gt pred : List ℚ) (i : ℕ) : ℕ := (detTimes gt pred i).length

/-- Indices of ground-truth marks with exactly one qualifying detection
(hits). -/
def hitIdx (gt pred : List ℚ) : List ℕ :=
  (List.range gt.length).filter (fun i => detCount gt pred i == 1)

/-- Indices of ground-truth marks with no qualifying detection (misses). -/
def missIdx (gt pred : List ℚ) : List ℕ :=
  (List.range gt.length).filter (fun i => detCount gt pred i == 0)

/-- Indices of ground-truth marks with more than one qualifying detection
(multiple detections, counted as false alarms). -/
def multIdx (gt pred : List ℚ) : List ℕ :=
  (List.range gt.length).filter (fun i => decide (2 ≤ detCount gt pred i))

/-- Timing error of the (unique) detection at a hit index. -/
def hitErr (gt pred : List ℚ) (i : ℕ) : ℚ :=
  absQ ((detTimes gt pred i).headD 0 - gt.getD i 0)

/-- Fixed 0.25 ms tolerance of the A25 measure. -/
def a25_tol : ℚ := 1/4000

/-- Per-utterance match counts, the order-independent aggregation unit. -/
structure Counts where
  total : ℕ
  hits : ℕ
  miss : ℕ
  mult : ℕ
  errSum : ℚ
  nA25 : ℕ
  nE10 : ℕ
deriving DecidableEq

/-- The six aggregate GCI metrics. -/
structure Metrics where
  idr : ℚ
  mr : ℚ
  far : ℚ
  ida : ℚ
  a25 : ℚ
  e10 : ℚ
deriving DecidableEq

/-- Modelled from the spec: per-utterance counting pass of the evaluator —
classify every ground-truth mark as hit / miss / multiply-detected and
accumulate timing errors of hits. -/
def uttCounts (gt pred : List ℚ) : Counts :=
  { total := gt.length
    hits := (hitIdx gt pred).length
    miss := (missIdx gt pred).length
    mult := (multIdx gt pred).length
    errSum := ((hitIdx gt pred).map (hitErr gt pred)).sum
    nA25 := ((hitIdx gt pred).filter (fun i => decide (hitErr gt pred i ≤ a25_tol))).length
    nE10 := ((hitIdx gt pred).filter
      (fun i => decide (hitErr gt pred i ≤ rel_dist / 100 * localT0 gt i))).length }

/-- Division that signals failure on a zero denominator instead of
silently returning a value. -/
def divChecked (a b : ℚ) : Option ℚ := if b = 0 then none else some (a / b)

/-- Modelled from the spec: turn aggregated counts into the six metrics.
Every division is guarded: an empty ground truth yields all-zero metrics
and zero hits yield IDA = A25 = 0, as the spec requires the evaluator to
handle empty sequences without division errors. -/
def metricsOfCounts (c : Counts) : Option Metrics :=
  if c.total = 0 then some ⟨0, 0, 0, 0, 0, 0⟩ else
  match divChecked (c.hits : ℚ) (c.total : ℚ), divChecked (c.miss : ℚ) (c.total : ℚ),
        divChecked (c.mult : ℚ) (c.total : ℚ), divChecked (c.nE10 : ℚ) (c.total : ℚ) with
  | some idr, some mr, some far, some e10 =>
    if c.hits = 0 then some ⟨idr, mr, far, 0, 0, e10⟩ else
    match divChecked c.errSum (c.hits : ℚ), divChecked (c.nA25 : ℚ) (c.hits : ℚ) with
    | some ida, some a25 => some ⟨idr, mr, far, ida, a25, e10⟩
    | _, _ => none
  | _, _, _, _ => none

/-- Modelled from the spec: single-utterance evaluation — count, then
derive the metrics. -/
def evaluate (gt pred : List ℚ) : Option Metrics :=
  metricsOfCounts (uttCounts gt pred)

/-- Componentwise addition of per-utterance counts. -/
def addCounts (a b : Counts) : Counts :=
  ⟨a.total + b.total, a.hits + b.hits, a.miss + b.miss, a.mult + b.mult,
   a.errSum + b.errSum, a.nA25 + b.nA25, a.nE10 + b.nE10⟩

/-- The zero element of count aggregation. -/
def zeroCounts : Counts := ⟨0, 0, 0, 0, 0, 0, 0⟩

/-- Sum of a list of per-utterance counts. -/
def sumCounts (l : List Counts) : Counts := l.foldr addCounts zeroCounts

/-- Modelled from the spec: `ut.evaluate_model` pools the per-utterance
hit/miss/false-alarm counts by summation and derives the metrics from the
pooled counts (sum counts, not average per-utterance rates). -/
def evaluate_model (utts : List (List ℚ × List ℚ)) : Option Metrics :=
  metricsOfCounts (sumCounts (utts.map (fun u => uttCounts u.1 u.2)))

/-- Character of a decimal digit. -/
def digitChar : ℕ → Char
  | 0 => '0'
  | 1 => '1'
  | 2 => '2'
  | 3 => '3'
  | 4 => '4'
  | 5 => '5'
  | 6 => '6'
  | 7 => '7'
  | 8 => '8'
  | _ => '9'

/-- Decimal digit denoted by a character (digits only). -/
def charDigit (c : Char) : ℕ :=
  if c = '0' then 0 else if c = '1' then 1 else if c = '2' then 2 else if c = '3' then 3
  else if c = '4' then 4 else if c = '5' then 5 else if c = '6' then 6 else if c = '7' then 7
  else if c = '8' then 8 else 9

/-- Whether a character is a decimal digit. -/
def isDigitCh (c : Char) : Bool :=
  c == '0' || c == '1' || c == '2' || c == '3' || c == '4' ||
  c == '5' || c == '6' || c == '7' || c == '8' || c == '9'

/-- Value of a little-endian decimal digit list. -/
def digitsVal : List ℕ → ℕ
  | [] => 0
  | d :: ds => d + 10 * digitsVal ds

/-- Little-endian decimal digits of the second argument, with enough fuel
in the first. -/
def natDigitList : ℕ → ℕ → List ℕ
  | 0, _ => []
  | _ + 1, 0 => []
  | f + 1, n + 1 => ((n + 1) % 10) :: natDigitList f ((n + 1) / 10)

/-- Decimal digit characters of a natural number, most significant first. -/
def natDigits (n : ℕ) : List Char :=
  if n = 0 then ['0'] else ((natDigitList n n).map digitChar).reverse

/-- Parse a nonempty all-digit character list as a natural number. -/
def parseNat (cs : List Char) : Option ℕ :=
  if cs.isEmpty then none
  else if cs.all isDigitCh then some (digitsVal ((cs.map charDigit).reverse))
  else none

/-- Left-pad a digit string with zeros to the given width. -/
def padZeros (k : ℕ) (cs : List Char) : List Char :=
  List.replicate (k - cs.length) '0' ++ cs

/-- Number of decimal places the pitch-mark writer uses for a timestamp. -/
def timePrec : ℕ := 7

/-- A timestamp scaled to an integer count of `10 ^ -timePrec` second
units, rounded to nearest. -/
def tScaled (q : ℚ) : ℕ := (⌊q * 10 ^ timePrec + 1/2⌋).toNat

/-- Modelled from the spec: render a timestamp as a decimal field with
`timePrec` digits after the point (the `Pitchmark` writer in `utils` is
not part of the visible source; the spec fixes the three-field line
format and round-trip up to floating-point tolerance). -/
def timeTok (q : ℚ) : List Char :=
  natDigits (tScaled q / 10 ^ timePrec) ++
    '.' :: padZeros timePrec (natDigits (tScaled q % 10 ^ timePrec))

/-- Modelled from the spec: parse a numeric decimal time field, with an
optional fractional part after the point. -/
def parseTimeTok (cs : List Char) : Option ℚ :=
  if (cs.dropWhile (fun c => c != '.')).isEmpty then (parseNat cs).map (fun a => (a : ℚ))
  else
    match parseNat (cs.takeWhile (fun c => c != '.')),
        parseNat ((cs.dropWhile (fun c => c != '.')).drop 1) with
    | some a, some b =>
      some ((a : ℚ) + (b : ℚ) / 10 ^ ((cs.dropWhile (fun c => c != '.')).drop 1).length)
    | _, _ => none

/-- Modelled from the spec: one line of the wavesurfer pitch-mark format
for a predicted mark — start time, end time defaulting to the start time,
and the fixed voiced label, separated by single spaces. -/
def writeLine (t : ℚ) : List Char :=
  timeTok t ++ (' ' :: (timeTok t ++ (' ' :: ['V'])))

/-- Modelled from the spec: `Pitchmark.write_file` emits one line per
mark, in sequence order. -/
def write_file (pms : List ℚ) : List (List Char) := pms.map writeLine

/-- FormatError raised on a malformed pitch-mark line. -/
inductive FmtErr where
  | badFieldCount : FmtErr
  | badTime : FmtErr
deriving DecidableEq

/-- Split a line into whitespace-separated fields (accumulator version of
the usual whitespace split, skipping repeated separators). -/
def splitAux : List Char → List Char → List (List Char)
  | [], acc => if acc.isEmpty then [] else [acc.reverse]
  | c :: cs, acc =>
    if c = ' ' then (if acc.isEmpty then splitAux cs [] else acc.reverse :: splitAux cs [])
    else splitAux cs (c :: acc)

/-- Fields of a line, split on spaces. -/
def splitFields (l : List Char) : List (List Char) := splitAux l []

/-- Modelled from the spec: parse one pitch-mark line — it must split into
exactly three whitespace-separated fields with a numeric first (time)
field, else a FormatError is raised; the mark's time is the first field. -/
def readLine (l : List Char) : Except FmtErr ℚ :=
  match splitFields l with
  | [f1, _, _] =>
    match parseTimeTok f1 with
    | some t => .ok t
    | none => .error .badTime
  | _ => .error .badFieldCount

/-- Modelled from the spec: read a pitch-mark file line by line in file
order, failing with the FormatError of a malformed line. -/
def read_file : List (List Char) → Except FmtErr (List ℚ)
  | [] => .ok []
  | l :: ls =>
    match readLine l, read_file ls with
    | .ok t, .ok ts => .ok (t :: ts)
    | .error e, _ => .error e
    | .ok _, .error e => .error e

/-- Whether an Except result is a success. -/
def isOkE {ε α : Type} : Except ε α → Bool
  | .ok _ => true
  | .error _ => false

/-- Well-formedness of a pitch-mark line: exactly three fields and a
numeric first field. -/
def lineOK (l : List Char) : Bool :=
  (splitFields l).length == 3 && (parseTimeTok ((splitFields l).headD [])).isSome

/-- The time parsed from the first field of a line (0 on a bad line). -/
def lineTime (l : List Char) : ℚ := (parseTimeTok ((splitFields l).headD [])).getD 0

/-- Round-trip tolerance of the timestamp codec: one unit in the last
written decimal place. -/
def roundTol : ℚ := 1 / 10 ^ timePrec

/-- Window length in samples: `win_len * freq_samp = 160`, as printed by
the notebook (`# samples per window : 160`). -/
def winSamples : ℕ := 160

/-- Hop length in samples: `hop_len * freq_samp = 32`. -/
def hopSamples : ℕ := 32

/-- Truncate a sequence to `n` timesteps and pad it with `pad` up to `n`. -/
def padTrunc {α : Type} (pad : α) (n : ℕ) (l : List α) : List α :=
  l.take n ++ List.replicate (n - l.length) pad

/-- Modelled from the spec: number of frames obtained from the waveform
with the configured hop length. -/
def numFrames (wav : List ℤ) : ℕ := wav.length / hopSamples

/-- Modelled from the spec: frame `i` covers samples
`[i*hopSamples, i*hopSamples + winSamples)`; a trailing short window is
padded with the pad value. -/
def frames (wav : List ℤ) : List (List ℤ) :=
  (List.range (numFrames wav)).map
    (fun i => padTrunc pad_value winSamples ((wav.drop (i * hopSamples)).take winSamples))

/-- Modelled from the spec: binary frame labels — frame `i` is labeled 1
iff some ground-truth mark falls inside its time span. -/
def frameLabels (wav : List ℤ) (gt : List ℚ) : List ℕ :=
  (List.range (numFrames wav)).map (fun i =>
    if gt.any (fun t => decide (((i * hopSamples : ℕ) : ℚ) / (freq_samp : ℚ) ≤ t ∧
        t < ((i * hopSamples + winSamples : ℕ) : ℚ) / (freq_samp : ℚ))) then 1 else 0)

/-- Modelled from the spec: `ut.prep4input` for one utterance — the frame
tensor and the label sequence, both padded/truncated in time to the fixed
`n_timesteps`. -/
def prep4input (wav : List ℤ) (gt : List ℚ) : List (List ℤ) × List ℕ :=
  (padTrunc (List.replicate winSamples pad_value) n_timesteps (frames wav),
   padTrunc 0 n_timesteps (frameLabels wav gt))

/-- Optimizer objects the notebook can construct. -/
inductive Optimizer where
  | adam (lr : ℚ) : Optimizer
deriving DecidableEq

/-- The optimizer table of the notebook compile cell: a one-entry
dictionary mapping the key adam to an Adam optimizer built with the
configured learning rate. -/
def optTable (lr : ℚ) : List (String × Optimizer) := [("adam", Optimizer.adam lr)]

/-- The optimizer selection of the notebook compile cell: indexing the
table with the configured name; a missing key is a lookup failure (the
Python KeyError), i.e. the fail-fast configuration error. -/
def lookupOpt (name : String) (lr : ℚ) : Option Optimizer :=
  (optTable lr).lookup name

/-- Marker for a model that went through `compile` and `fit_model`. -/
structure TrainedModel where
  opt : Optimizer
deriving DecidableEq

/-- The notebook's compile-then-train cell sequence: training happens only
when the optimizer lookup succeeded. -/
def compileAndFit (name : String) (lr : ℚ) : Option TrainedModel :=
  (lookupOpt name lr).map (fun o => ⟨o⟩)

/-- Sync search radius in samples: `sync = (0.002, 0.002)` seconds at
16 kHz is 32 samples on each side. -/
def syncSamples : ℕ := 32

/-- Modelled from the spec: starts of runs of positive frames after
thresholding the per-frame probabilities at 0.5. -/
def runStarts (probs : List ℚ) : List ℕ :=
  (List.range probs.length).filter
    (fun i => decide ((1:ℚ)/2 < probs.getD i 0) &&
      (i == 0 || !(decide ((1:ℚ)/2 < probs.getD (i-1) 0))))

/-- Index of a minimal sample value in the closed sample range
`[lo, hi]`. -/
def argminIdx (wav : List ℤ) (lo hi : ℕ) : ℕ :=
  lo + selMin (fun k => wav.getD (lo + k) 0) (List.range (hi + 1 - lo)) 0

/-- Modelled from the spec: sync-interval refinement — search the samples
around the nominal frame position for the minimum signal value. -/
def refineGCI (wav : List ℤ) (c : ℕ) : ℕ :=
  argminIdx wav (c - syncSamples) (c + syncSamples)

/-- Modelled from the spec: `ut.detect` for one utterance — threshold the
per-frame probabilities, collapse each run of positive frames to its
first frame's nominal sample position, refine it inside the sync interval
to the sample of minimum amplitude, and return that sample index divided
by the sampling frequency. -/
def detect_times (wav : List ℤ) (probs : List ℚ) : List ℚ :=
  (runStarts probs).map
    (fun i => ((refineGCI wav (i * hopSamples + winSamples / 2) : ℕ) : ℚ) / (freq_samp : ℚ))

/-- The exact-match scenario of the spec: ground truth
`[0.2346875, 0.2423125, 0.2502500]`, sample-aligned at 16 kHz. -/
def gScn : List ℚ := [3755/16000, 3877/16000, 4004/16000]

/-- Basic facts about the rational absolute value used for distances. -/
theorem absQ_nonneg (x : ℚ) : 0 ≤ absQ x := by
  unfold absQ; split <;> linarith

theorem absQ_eq_zero {x : ℚ} : absQ x = 0 ↔ x = 0 := by
  unfold absQ; split <;> constructor <;> intro h <;> linarith

theorem absQ_zero : absQ 0 = 0 := by
  simp [absQ]

theorem absQ_sub_self (x : ℚ) : absQ (x - x) = 0 := by
  rw [sub_self]; exact absQ_zero

/-- Unfolding equation of `selMin` on a cons cell. -/
theorem selMin_cons {α : Type} [LinearOrder α] (d : ℕ → α) (a : ℕ) (t : List ℕ) (b : ℕ) :
    selMin d (a :: t) b = selMin d t (if d a < d b then a else b) := rfl

theorem selMin_eq_or_mem {α : Type} [LinearOrder α] (d : ℕ → α) :
    ∀ (l : List ℕ) (b : ℕ), selMin d l b = b ∨ selMin d l b ∈ l
  | [], _ => Or.inl rfl
  | a :: t, b => by
    rw [selMin_cons]
    by_cases hc : d a < d b
    · rw [if_pos hc]
      rcases selMin_eq_or_mem d t a with h | h
      · exact Or.inr (by rw [h]; exact List.mem_cons_self a t)
      · exact Or.inr (List.mem_cons_of_mem a h)
    · rw [if_neg hc]
      rcases selMin_eq_or_mem d t b with h | h
      · exact Or.inl h
      · exact Or.inr (List.mem_cons_of_mem a h)

theorem selMin_le_init {α : Type} [LinearOrder α] (d : ℕ → α) :
    ∀ (l : List ℕ) (b : ℕ), d (selMin d l b) ≤ d b
  | [], _ => le_refl _
  | a :: t, b => by
    rw [selMin_cons]
    by_cases hc : d a < d b
    · rw [if_pos hc]; exact le_trans (selMin_le_init d t a) (le_of_lt hc)
    · rw [if_neg hc]; exact selMin_le_init d t b

theorem selMin_le_mem {α : Type} [LinearOrder α] (d : ℕ → α) :
    ∀ (l : List ℕ) (b : ℕ) (i : ℕ), i ∈ l → d (selMin d l b) ≤ d i
  | [], _, i, hi => absurd hi (List.not_mem_nil i)
  | a :: t, b, i, hi => by
    rw [selMin_cons]
    rcases List.mem_cons.mp hi with rfl | hm
    · by_cases hc : d i < d b
      · rw [if_pos hc]; exact selMin_le_init d t i
      · rw [if_neg hc]; exact le_trans (selMin_le_init d t b) (le_of_not_lt hc)
    · by_cases hc : d a < d b
      · rw [if_pos hc]; exact selMin_le_mem d t a i hm
      · rw [if_neg hc]; exact selMin_le_mem d t b i hm

/-- The nearest-neighbor index is a valid ground-truth index. -/
theorem nearestIdx_lt_length (gt : List ℚ) (p : ℚ) (h : gt ≠ []) :
    nearestIdx gt p < gt.length := by
  have hn : 0 < gt.length := List.length_pos.mpr h
  simp only [nearestIdx]
  rcases selMin_eq_or_mem (fun i => absQ (p - gt.getD i 0)) (List.range gt.length) 0 with h1 | h1
  · rw [h1]; exact hn
  · exact List.mem_range.mp h1

/-- In a strictly sorted list, positions with equal values coincide. -/
theorem sorted_getD_inj {gt : List ℚ} (hs : List.Sorted (· < ·) gt) {i j : ℕ}
    (hi : i < gt.length) (hj : j < gt.length) (h : gt.getD i 0 = gt.getD j 0) : i = j := by
  rcases lt_trichotomy i j with hlt | heq | hgt
  · have hR := List.pairwise_iff_getElem.mp hs i j hi hj hlt
    rw [List.getD_eq_getElem _ _ hi, List.getD_eq_getElem _ _ hj] at h
    exact absurd h (ne_of_lt hR)
  · exact heq
  · have hR := List.pairwise_iff_getElem.mp hs j i hj hi hgt
    rw [List.getD_eq_getElem _ _ hi, List.getD_eq_getElem _ _ hj] at h
    exact absurd h.symm (ne_of_lt hR)

/-- A ground-truth mark's own time is assigned to itself by the
nearest-neighbor matching (strict ordering makes distances to other marks
positive). -/
theorem nearestIdx_self {gt : List ℚ} (hs : List.Sorted (· < ·) gt) {j : ℕ}
    (hj : j < gt.length) : nearestIdx gt (gt.getD j 0) = j := by
  have hne : gt ≠ [] := by
    intro h; rw [h] at hj; exact absurd hj (by simp)
  have hlt := nearestIdx_lt_length gt (gt.getD j 0) hne
  have hle : absQ (gt.getD j 0 - gt.getD (nearestIdx gt (gt.getD j 0)) 0) ≤
      absQ (gt.getD j 0 - gt.getD j 0) := by
    simp only [nearestIdx]
    exact selMin_le_mem (fun i => absQ (gt.getD j 0 - gt.getD i 0))
      (List.range gt.length) 0 j (List.mem_range.mpr hj)
  rw [absQ_sub_self] at hle
  have h0 := le_antisymm hle (absQ_nonneg _)
  have heq := sub_eq_zero.mp (absQ_eq_zero.mp h0)
  exact sorted_getD_inj hs hlt hj heq.symm

/-- A filter whose predicate holds exactly at position `i` returns the
singleton with the element at `i`. -/
theorem filter_eq_singleton {α : Type} (dflt : α) :
    ∀ (l : List α) (f : α → Bool) (i : ℕ), i < l.length →
      (∀ j, j < l.length → (f (l.getD j dflt) = true ↔ j = i)) →
      l.filter f = [l.getD i dflt]
  | [], _, i, hi, _ => absurd hi (Nat.not_lt_zero i)
  | a :: t, f, 0, _, h => by
    have ha : f a = true := by
      have h0 := (h 0 (Nat.succ_pos _)).mpr rfl
      simpa [List.getD_cons_zero] using h0
    have ht : t.filter f = [] := by
      refine List.filter_eq_nil_iff.mpr ?_
      intro x hx
      obtain ⟨j, hj, hxe⟩ := List.mem_iff_getElem.mp hx
      have h2 := h (j + 1) (Nat.succ_lt_succ hj)
      rw [List.getD_cons_succ, List.getD_eq_getElem _ _ hj, hxe] at h2
      simp only [Nat.succ_ne_zero, iff_false] at h2
      simp [h2]
    simp [List.filter_cons, ha, ht, List.getD_cons_zero]
  | a :: t, f, i + 1, hi, h => by
    have ha : ¬ f a = true := by
      intro hfa
      have h0 := (h 0 (Nat.succ_pos _)).mp (by simpa [List.getD_cons_zero] using hfa)
      exact Nat.succ_ne_zero i h0.symm
    have ht := filter_eq_singleton dflt t f i (Nat.lt_of_succ_lt_succ hi) (fun j hj => by
      have h2 := h (j + 1) (Nat.succ_lt_succ hj)
      rw [List.getD_cons_succ] at h2
      simpa [Nat.succ_inj] using h2)
    simp [List.filter_cons, ha, ht, List.getD_cons_succ]

/-- A predicted mark at a ground-truth position qualifies (distance zero
is within the absolute threshold). -/
theorem withinTol_self (gt : List ℚ) (i : ℕ) : withinTol gt i (gt.getD i 0) = true := by
  have h0 : absQ (gt.getD i 0 - gt.getD i 0) = 0 := absQ_sub_self _
  simp only [withinTol, h0, Bool.or_eq_true, decide_eq_true_eq]
  left
  norm_num [abs_dist]

/-- With predictions equal to the ground truth, every ground-truth mark
attracts exactly its own copy. -/
theorem detTimes_self {gt : List ℚ} (hs : List.Sorted (· < ·) gt) {i : ℕ}
    (hi : i < gt.length) : detTimes gt gt i = [gt.getD i 0] := by
  simp only [detTimes]
  refine filter_eq_singleton 0 gt _ i hi ?_
  intro j hj
  constructor
  · intro hf
    simp only [Bool.and_eq_true] at hf
    obtain ⟨h1, _⟩ := hf
    have h2 := beq_iff_eq.mp h1
    rw [nearestIdx_self hs hj] at h2
    exact h2
  · intro hji
    subst hji
    simp only [Bool.and_eq_true]
    exact ⟨beq_iff_eq.mpr (nearestIdx_self hs hj), withinTol_self gt j⟩

theorem detCount_self {gt : List ℚ} (hs : List.Sorted (· < ·) gt) {i : ℕ}
    (hi : i < gt.length) : detCount gt gt i = 1 := by
  simp [detCount, detTimes_self hs hi]

theorem hitIdx_self {gt : List ℚ} (hs : List.Sorted (· < ·) gt) :
    hitIdx gt gt = List.range gt.length := by
  refine List.filter_eq_self.mpr ?_
  intro i hi
  simp [detCount_self hs (List.mem_range.mp hi)]

theorem missIdx_self {gt : List ℚ} (hs : List.Sorted (· < ·) gt) : missIdx gt gt = [] := by
  refine List.filter_eq_nil_iff.mpr ?_
  intro i hi
  simp [detCount_self hs (List.mem_range.mp hi)]

theorem multIdx_self {gt : List ℚ} (hs : List.Sorted (· < ·) gt) : multIdx gt gt = [] := by
  refine List.filter_eq_nil_iff.mpr ?_
  intro i hi
  simp [detCount_self hs (List.mem_range.mp hi)]

theorem hitErr_self {gt : List ℚ} (hs : List.Sorted (· < ·) gt) {i : ℕ}
    (hi : i < gt.length) : hitErr gt gt i = 0 := by
  simp [hitErr, detTimes_self hs hi, absQ_zero]

/-- The local fundamental period is clipped below by `min_t0`. -/
theorem min_t0_le_localT0 (gt : List ℚ) (i : ℕ) : min_t0 ≤ localT0 gt i := by
  unfold localT0
  split
  · exact le_max_right _ _
  · exact le_refl _

theorem localT0_nonneg (gt : List ℚ) (i : ℕ) : 0 ≤ localT0 gt i :=
  le_trans (by norm_num [min_t0]) (min_t0_le_localT0 gt i)

/-- Counting pass on an exact match: all marks are hits with zero error. -/
theorem uttCounts_self {gt : List ℚ} (hs : List.Sorted (· < ·) gt) :
    uttCounts gt gt = ⟨gt.length, gt.length, 0, 0, 0, gt.length, gt.length⟩ := by
  have hA : ∀ i ∈ List.range gt.length,
      (decide (hitErr gt gt i ≤ a25_tol)) = true := by
    intro i hi
    rw [hitErr_self hs (List.mem_range.mp hi)]
    norm_num [a25_tol]
  have hE : ∀ i ∈ List.range gt.length,
      (decide (hitErr gt gt i ≤ rel_dist / 100 * localT0 gt i)) = true := by
    intro i hi
    rw [hitErr_self hs (List.mem_range.mp hi)]
    have hT := localT0_nonneg gt i
    simp only [decide_eq_true_eq]
    exact mul_nonneg (by norm_num [rel_dist]) hT
  have hsum : ((List.range gt.length).map (hitErr gt gt)).sum = 0 := by
    refine List.sum_eq_zero ?_
    intro x hx
    obtain ⟨i, hi, rfl⟩ := List.mem_map.mp hx
    exact hitErr_self hs (List.mem_range.mp hi)
  simp [uttCounts, hitIdx_self hs, missIdx_self hs, multIdx_self hs, hsum,
    List.filter_eq_self.mpr hA, List.filter_eq_self.mpr hE]

/-- Derived metrics from counts with a non-empty ground truth: all the
guarded divisions succeed. -/
theorem metricsOfCounts_pos (c : Counts) (h : c.total ≠ 0) :
    metricsOfCounts c = some ⟨(c.hits : ℚ) / (c.total : ℚ), (c.miss : ℚ) / (c.total : ℚ),
      (c.mult : ℚ) / (c.total : ℚ),
      if c.hits = 0 then 0 else c.errSum / (c.hits : ℚ),
      if c.hits = 0 then 0 else (c.nA25 : ℚ) / (c.hits : ℚ),
      (c.nE10 : ℚ) / (c.total : ℚ)⟩ := by
  have ht : (c.total : ℚ) ≠ 0 := Nat.cast_ne_zero.mpr h
  by_cases hh : c.hits = 0
  · simp [metricsOfCounts, divChecked, h, ht, hh]
  · have hhq : (c.hits : ℚ) ≠ 0 := Nat.cast_ne_zero.mpr hh
    simp [metricsOfCounts, divChecked, h, ht, hh, hhq]

/-- C1: for every non-empty, strictly time-ordered ground-truth sequence,
evaluating a predicted sequence exactly equal to the ground truth yields
IDR = 1, MR = 0, FAR = 0, IDA = 0, A25 = 1 and E10 = 1. -/
theorem evaluate_exact_match {gt : List ℚ} (hs : List.Sorted (· < ·) gt) (hne : gt ≠ []) :
    evaluate gt gt = some ⟨1, 0, 0, 0, 1, 1⟩ := by
  have hn : gt.length ≠ 0 := fun h => hne (List.length_eq_zero.mp h)
  have hnq : (gt.length : ℚ) ≠ 0 := Nat.cast_ne_zero.mpr hn
  rw [evaluate, uttCounts_self hs, metricsOfCounts_pos _ hn]
  simp [hn, div_self hnq]

/-- Witness for C1 at the spec's scenario: ground truth and prediction
both `[0.2346875, 0.2423125, 0.2502500]`. -/
theorem evaluate_exact_match_scn : evaluate gScn gScn = some ⟨1, 0, 0, 0, 1, 1⟩ :=
  evaluate_exact_match (by with_unfolding_all decide) (by with_unfolding_all decide)

/-- Counting pass on an empty prediction: every ground-truth mark is a
miss. -/
theorem uttCounts_empty_pred (gt : List ℚ) :
    uttCounts gt [] = ⟨gt.length, 0, gt.length, 0, 0, 0, 0⟩ := by
  have hh : hitIdx gt [] = [] :=
    List.filter_eq_nil_iff.mpr (by intro i _; simp [detCount, detTimes])
  have hm : missIdx gt [] = List.range gt.length :=
    List.filter_eq_self.mpr (by intro i _; simp [detCount, detTimes])
  have hx : multIdx gt [] = [] :=
    List.filter_eq_nil_iff.mpr (by intro i _; simp [detCount, detTimes])
  simp [uttCounts, hh, hm, hx]

/-- Single-utterance evaluation of an empty prediction against a
non-empty ground truth. -/
theorem evaluate_gt_nil {gt : List ℚ} (hne : gt ≠ []) :
    evaluate gt [] = some ⟨0, 1, 0, 0, 0, 0⟩ := by
  have hn : gt.length ≠ 0 := fun h => hne (List.length_eq_zero.mp h)
  have hnq : (gt.length : ℚ) ≠ 0 := Nat.cast_ne_zero.mpr hn
  rw [evaluate, uttCounts_empty_pred, metricsOfCounts_pos _ hn]
  simp [div_self hnq]

/-- Evaluation with an empty ground truth returns the guarded all-zero
metrics rather than dividing by the zero mark count. -/
theorem evaluate_nil_gt (pred : List ℚ) : evaluate [] pred = some ⟨0, 0, 0, 0, 0, 0⟩ := by
  simp [evaluate, metricsOfCounts, uttCounts, hitIdx, missIdx, multIdx]

/-- C2: for every non-empty ground truth, evaluating an empty predicted
sequence returns IDR = 0, MR = 1 and FAR = 0, and the evaluation performs
no division by zero (it succeeds) on empty predicted or empty
ground-truth sequences. -/
theorem evaluate_empty_pred {gt : List ℚ} (hne : gt ≠ []) :
    (∃ m : Metrics, evaluate gt [] = some m ∧ m.idr = 0 ∧ m.mr = 1 ∧ m.far = 0) ∧
    (∀ gt' : List ℚ, (evaluate gt' []).isSome = true) ∧
    (∀ pred : List ℚ, (evaluate [] pred).isSome = true) := by
  refine ⟨⟨⟨0, 1, 0, 0, 0, 0⟩, evaluate_gt_nil hne, rfl, rfl, rfl⟩, ?_, ?_⟩
  · intro gt'
    rcases eq_or_ne gt' [] with rfl | hne'
    · rw [evaluate_nil_gt]; rfl
    · rw [evaluate_gt_nil hne']; rfl
  · intro pred
    rw [evaluate_nil_gt]; rfl

/-- Witness for C2 at the spec's scenario ground truth with an empty
prediction. -/
theorem evaluate_empty_pred_scn :
    ∃ m : Metrics, evaluate gScn [] = some m ∧ m.idr = 0 ∧ m.mr = 1 ∧ m.far = 0 :=
  (evaluate_empty_pred (by with_unfolding_all decide)).1

/-- C3: a ground-truth mark with a single assigned predicted mark counts
as a hit exactly when the distance is within `abs_dist` seconds or within
`rel_dist` percent of the local T0 (which is clipped below by `min_t0`) —
the looser of the two bounds decides. -/
theorem single_pred_hit_iff (gt : List ℚ) (p : ℚ) (i : ℕ) (hi : i < gt.length)
    (hn : nearestIdx gt p = i) :
    min_t0 ≤ localT0 gt i ∧
    (detCount gt [p] i = 1 ↔
      (absQ (p - gt.getD i 0) ≤ abs_dist ∨
       absQ (p - gt.getD i 0) ≤ rel_dist / 100 * localT0 gt i)) := by
  refine ⟨min_t0_le_localT0 gt i, ?_⟩
  have hwt : withinTol gt i p = true ↔
      (absQ (p - gt.getD i 0) ≤ abs_dist ∨
       absQ (p - gt.getD i 0) ≤ rel_dist / 100 * localT0 gt i) := by
    simp [withinTol]
  constructor
  · intro h1
    by_contra hcon
    have hw : withinTol gt i p = false := by
      rcases Bool.eq_false_or_eq_true (withinTol gt i p) with h | h
      · exact absurd (hwt.mp h) hcon
      · exact h
    simp [detCount, detTimes, List.filter_cons, hn, hw] at h1
  · intro h2
    have hw : withinTol gt i p = true := hwt.mpr h2
    simp [detCount, detTimes, List.filter_cons, hn, hw]

/-- Witness for C3 at the spec's scenario: a predicted mark shifted by
0.0003 s from the first ground-truth mark misses the absolute threshold
`abs_dist = 0.00025` but is a hit through the relative rule with the
clipped local T0. -/
theorem single_pred_hit_scn :
    detCount gScn [3755/16000 + 3/10000] 0 = 1 ∧
    ¬ absQ ((3755/16000 + 3/10000) - gScn.getD 0 0) ≤ abs_dist := by
  have h := single_pred_hit_iff gScn (3755/16000 + 3/10000) 0
    (by with_unfolding_all decide) (by with_unfolding_all decide)
  exact ⟨h.2.mpr (Or.inr (by with_unfolding_all decide)), by with_unfolding_all decide⟩

/-- Counting a list split by the three-way classification of a
ℕ-valued function: the class counts add up to the list length. -/
theorem filter_tri_length (l : List ℕ) (g : ℕ → ℕ) :
    (l.filter (fun i => g i == 1)).length + (l.filter (fun i => g i == 0)).length +
      (l.filter (fun i => decide (2 ≤ g i))).length = l.length := by
  induction l with
  | nil => rfl
  | cons a t ih =>
    cases hga : g a with
    | zero =>
      have h2 : ¬ (2:ℕ) ≤ 0 := by omega
      simp [List.filter_cons, hga, h2]
      omega
    | succ m =>
      cases m with
      | zero =>
        have h2 : ¬ (2:ℕ) ≤ 1 := by omega
        simp [List.filter_cons, hga, h2]
        omega
      | succ k =>
        have h2 : (2:ℕ) ≤ k + 1 + 1 := by omega
        simp [List.filter_cons, hga, h2]
        omega

/-- C4: with a non-empty ground truth, the hit/miss/multiple classes
partition the ground-truth marks, so IDR + MR ≤ 1 with equality exactly
when no ground-truth mark has two or more qualifying detections. -/
theorem evaluate_partition {gt pred : List ℚ} (hne : gt ≠ []) :
    (uttCounts gt pred).hits + (uttCounts gt pred).miss + (uttCounts gt pred).mult
        = gt.length ∧
    ∃ m : Metrics, evaluate gt pred = some m ∧ m.idr + m.mr ≤ 1 ∧
      (m.idr + m.mr = 1 ↔ ∀ i, i < gt.length → detCount gt pred i ≤ 1) := by
  have hn : gt.length ≠ 0 := fun h => hne (List.length_eq_zero.mp h)
  have hnq : (gt.length : ℚ) ≠ 0 := Nat.cast_ne_zero.mpr hn
  have hnpos : (0:ℚ) < (gt.length : ℚ) := by
    exact_mod_cast Nat.pos_of_ne_zero hn
  have htri : (uttCounts gt pred).hits + (uttCounts gt pred).miss +
      (uttCounts gt pred).mult = gt.length := by
    have h := filter_tri_length (List.range gt.length) (detCount gt pred)
    simpa [uttCounts, hitIdx, missIdx, multIdx, List.length_range] using h
  refine ⟨htri, ⟨_, metricsOfCounts_pos (uttCounts gt pred) hn, ?_, ?_⟩⟩
  · show ((uttCounts gt pred).hits : ℚ) / (gt.length : ℚ) +
      ((uttCounts gt pred).miss : ℚ) / (gt.length : ℚ) ≤ 1
    rw [div_add_div_same, div_le_one hnpos]
    have hle : (uttCounts gt pred).hits + (uttCounts gt pred).miss ≤ gt.length := by omega
    exact_mod_cast hle
  · show (((uttCounts gt pred).hits : ℚ) / (gt.length : ℚ) +
      ((uttCounts gt pred).miss : ℚ) / (gt.length : ℚ) = 1 ↔ _)
    rw [div_add_div_same, div_eq_iff hnq, one_mul]
    constructor
    · intro he
      have hnat : (uttCounts gt pred).hits + (uttCounts gt pred).miss = gt.length := by
        exact_mod_cast he
      have hm0 : (uttCounts gt pred).mult = 0 := by omega
      have hml : multIdx gt pred = [] := by
        have : (multIdx gt pred).length = 0 := by simpa [uttCounts] using hm0
        exact List.length_eq_zero.mp this
      intro i hilt
      by_contra hcon
      have hmem : i ∈ multIdx gt pred :=
        List.mem_filter.mpr ⟨List.mem_range.mpr hilt, by simpa using Nat.lt_of_not_le hcon⟩
      simp [hml] at hmem
    · intro hall
      have hml : multIdx gt pred = [] := by
        refine List.filter_eq_nil_iff.mpr ?_
        intro i hi
        have := hall i (List.mem_range.mp hi)
        simp only [decide_eq_true_eq]
        omega
      have hm0 : (uttCounts gt pred).mult = 0 := by simp [uttCounts, hml]
      have hnat : (uttCounts gt pred).hits + (uttCounts gt pred).miss = gt.length := by omega
      exact_mod_cast congrArg (fun k : ℕ => (k : ℚ)) hnat

/-- Witness for C4 at the scenario ground truth against its own copy. -/
theorem evaluate_partition_scn :
    (uttCounts gScn gScn).hits + (uttCounts gScn gScn).miss + (uttCounts gScn gScn).mult
      = gScn.length :=
  (@evaluate_partition gScn gScn (by with_unfolding_all decide)).1

/-- Unfolding equation of the count aggregation. -/
theorem sumCounts_cons (c : Counts) (l : List Counts) :
    sumCounts (c :: l) = addCounts c (sumCounts l) := rfl

theorem addCounts_left_comm (a b c : Counts) :
    addCounts a (addCounts b c) = addCounts b (addCounts a c) := by
  simp only [addCounts, Counts.mk.injEq]
  refine ⟨by omega, by omega, by omega, by omega, by ring, by omega, by omega⟩

/-- Summed counts are invariant under permutation of the utterances. -/
theorem sumCounts_perm {l1 l2 : List Counts} (hp : l1.Perm l2) :
    sumCounts l1 = sumCounts l2 := by
  induction hp with
  | nil => rfl
  | cons x _ ih => simp only [sumCounts_cons, ih]
  | swap x y l => simp only [sumCounts_cons]; exact addCounts_left_comm y x (sumCounts l)
  | trans _ _ ih1 ih2 => exact ih1.trans ih2

/-- C6: the pooled metrics of `evaluate_model` are invariant under any
permutation of the utterance processing order, because aggregation sums
the per-utterance hit/miss/false-alarm counts — an associative and
commutative reduction — instead of averaging per-utterance rates. -/
theorem evaluate_model_perm {u v : List (List ℚ × List ℚ)} (hp : u.Perm v) :
    evaluate_model u = evaluate_model v := by
  unfold evaluate_model
  rw [sumCounts_perm (hp.map (fun w => uttCounts w.1 w.2))]

/-- Witness for C6: swapping two concrete utterances leaves the pooled
metrics unchanged. -/
theorem evaluate_model_perm_swap :
    evaluate_model [(gScn, gScn), (gScn, [])] = evaluate_model [(gScn, []), (gScn, gScn)] :=
  evaluate_model_perm (List.Perm.swap (gScn, []) (gScn, gScn) [])

/-- Decimal digit characters decode back to the digit they encode. -/
theorem charDigit_digitChar {d : ℕ} (h : d < 10) : charDigit (digitChar d) = d := by
  interval_cases d <;> rfl

theorem isDigitCh_digitChar {d : ℕ} (h : d < 10) : isDigitCh (digitChar d) = true := by
  interval_cases d <;> rfl

theorem digitChar_ne_space {d : ℕ} (h : d < 10) : digitChar d ≠ ' ' := by
  interval_cases d <;> decide

theorem digitChar_ne_dot {d : ℕ} (h : d < 10) : (digitChar d != '.') = true := by
  interval_cases d <;> rfl

/-- The digit expansion produced with enough fuel evaluates back to the
encoded number. -/
theorem digitsVal_natDigitList : ∀ (f n : ℕ), n ≤ f → digitsVal (natDigitList f n) = n
  | 0, 0, _ => rfl
  | 0, n + 1, h => absurd h (by omega)
  | _ + 1, 0, _ => rfl
  | f + 1, n + 1, h => by
    have hlt : (n + 1) / 10 < n + 1 := Nat.div_lt_self (Nat.succ_pos n) (by omega)
    have hle : (n + 1) / 10 ≤ f := by omega
    simp only [natDigitList, digitsVal]
    rw [digitsVal_natDigitList f ((n + 1) / 10) hle]
    omega

theorem natDigitList_lt_ten : ∀ (f n : ℕ), ∀ d ∈ natDigitList f n, d < 10
  | 0, _, d, hd => absurd hd (List.not_mem_nil d)
  | _ + 1, 0, d, hd => absurd hd (List.not_mem_nil d)
  | f + 1, n + 1, d, hd => by
    simp only [natDigitList, List.mem_cons] at hd
    rcases hd with rfl | hd
    · exact Nat.mod_lt _ (by omega)
    · exact natDigitList_lt_ten f ((n + 1) / 10) d hd

theorem natDigitList_ne_nil {f n : ℕ} (hf : n ≤ f) (hn : n ≠ 0) :
    natDigitList f n ≠ [] := by
  cases f with
  | zero => omega
  | succ f =>
    cases n with
    | zero => exact absurd rfl hn
    | succ n => simp [natDigitList]

theorem natDigitList_length_le : ∀ (f n k : ℕ), n ≤ f → n < 10 ^ k →
    (natDigitList f n).length ≤ k
  | 0, _, _, _, _ => by simp [natDigitList]
  | _ + 1, 0, _, _, _ => by simp [natDigitList]
  | f + 1, n + 1, k, hf, hk => by
    cases k with
    | zero => omega
    | succ k =>
      simp only [natDigitList, List.length_cons]
      have hlt : (n + 1) / 10 < n + 1 := Nat.div_lt_self (Nat.succ_pos n) (by omega)
      have h1 : (n + 1) / 10 ≤ f := by omega
      have h2 : (n + 1) / 10 < 10 ^ k :=
        (Nat.div_lt_iff_lt_mul (by omega)).mpr (by rw [← pow_succ]; exact hk)
      exact Nat.succ_le_succ (natDigitList_length_le f ((n + 1) / 10) k h1 h2)

theorem natDigits_ne_nil (n : ℕ) : natDigits n ≠ [] := by
  unfold natDigits
  by_cases h : n = 0
  · rw [if_pos h]; simp
  · rw [if_neg h]
    simp only [ne_eq, List.reverse_eq_nil_iff, List.map_eq_nil]
    exact natDigitList_ne_nil (le_refl n) h

/-- Every character of a rendered natural number is a digit character. -/
theorem natDigits_all (n : ℕ) {P : Char → Prop} (hP : ∀ d, d < 10 → P (digitChar d)) :
    ∀ c ∈ natDigits n, P c := by
  intro c hc
  unfold natDigits at hc
  by_cases h : n = 0
  · rw [if_pos h] at hc
    simp only [List.mem_singleton] at hc
    subst hc
    exact hP 0 (by omega)
  · rw [if_neg h] at hc
    rw [List.mem_reverse] at hc
    obtain ⟨d, hd, rfl⟩ := List.mem_map.mp hc
    exact hP d (natDigitList_lt_ten n n d hd)

theorem map_charDigit_digitChar (ds : List ℕ) (h : ∀ d ∈ ds, d < 10) :
    (ds.map digitChar).map charDigit = ds := by
  induction ds with
  | nil => rfl
  | cons a t ih =>
    simp only [List.map_cons, List.cons.injEq]
    exact ⟨charDigit_digitChar (h a (List.mem_cons_self a t)),
      ih (fun d hd => h d (List.mem_cons_of_mem a hd))⟩

theorem parseNat_eq_of_digits (cs : List Char) (h1 : cs ≠ [])
    (h2 : cs.all isDigitCh = true) :
    parseNat cs = some (digitsVal ((cs.map charDigit).reverse)) := by
  unfold parseNat
  rw [if_neg (by simpa [List.isEmpty_iff] using h1), if_pos h2]

/-- Parsing a rendered natural number recovers it. -/
theorem parseNat_natDigits (n : ℕ) : parseNat (natDigits n) = some n := by
  have hall : (natDigits n).all isDigitCh = true :=
    List.all_eq_true.mpr (natDigits_all n (fun _ hd => isDigitCh_digitChar hd))
  rw [parseNat_eq_of_digits _ (natDigits_ne_nil n) hall]
  congr 1
  by_cases h : n = 0
  · subst h; rfl
  · unfold natDigits
    rw [if_neg h, List.map_reverse, List.reverse_reverse,
      map_charDigit_digitChar _ (natDigitList_lt_ten n n),
      digitsVal_natDigitList n n (le_refl n)]

theorem digitsVal_replicate_zero : ∀ j : ℕ, digitsVal (List.replicate j 0) = 0
  | 0 => rfl
  | j + 1 => by simp [List.replicate, digitsVal, digitsVal_replicate_zero j]

theorem digitsVal_append_zeros (ds : List ℕ) (j : ℕ) :
    digitsVal (ds ++ List.replicate j 0) = digitsVal ds := by
  induction ds with
  | nil => simp [digitsVal, digitsVal_replicate_zero j]
  | cons a t ih => simp [digitsVal, ih]

/-- Left-padding with zero digits does not change the parsed value. -/
theorem parseNat_padZeros (k : ℕ) (cs : List Char) (h1 : cs ≠ [])
    (h2 : cs.all isDigitCh = true) : parseNat (padZeros k cs) = parseNat cs := by
  unfold padZeros
  have hrep : (List.replicate (k - cs.length) '0').all isDigitCh = true := by
    rw [List.all_eq_true]
    intro c hc
    rw [List.eq_of_mem_replicate hc]
    rfl
  have hne : List.replicate (k - cs.length) '0' ++ cs ≠ [] := by simp [h1]
  have hall : (List.replicate (k - cs.length) '0' ++ cs).all isDigitCh = true := by
    rw [List.all_append, hrep, h2]
    rfl
  rw [parseNat_eq_of_digits _ hne hall, parseNat_eq_of_digits _ h1 h2]
  congr 1
  rw [List.map_append, List.reverse_append]
  have hmap : (List.replicate (k - cs.length) '0').map charDigit
      = List.replicate (k - cs.length) 0 := by
    rw [List.map_replicate]
    rfl
  rw [hmap, List.reverse_replicate]
  exact digitsVal_append_zeros _ _

theorem padZeros_length {k : ℕ} {cs : List Char} (h : cs.length ≤ k) :
    (padZeros k cs).length = k := by
  simp only [padZeros, List.length_append, List.length_replicate]
  omega

theorem natDigits_length_le {n k : ℕ} (hn : n < 10 ^ k) (hk : 1 ≤ k) :
    (natDigits n).length ≤ k := by
  unfold natDigits
  by_cases h : n = 0
  · rw [if_pos h]; simpa using hk
  · rw [if_neg h]
    simp only [List.length_reverse, List.length_map]
    exact natDigitList_length_le n n k (le_refl n) hn

theorem absQ_le_iff {a b : ℚ} : absQ a ≤ b ↔ -b ≤ a ∧ a ≤ b := by
  unfold absQ
  split
  · constructor
    · intro h; constructor <;> linarith
    · intro h; linarith [h.1]
  · constructor
    · intro h; constructor <;> linarith
    · intro h; exact h.2

theorem absQ_div_of_pos (a D : ℚ) (hD : 0 < D) : absQ (a / D) = absQ a / D := by
  unfold absQ
  by_cases h : a < 0
  · rw [if_pos (div_neg_of_neg_of_pos h hD), if_pos h, neg_div]
  · have h0 : 0 ≤ a := le_of_not_lt h
    rw [if_neg (not_lt.mpr (div_nonneg h0 (le_of_lt hD))), if_neg h]

/-- Splitting a dot-free prefix from a dotted tail. -/
theorem takeWhile_append_dot (t rest : List Char) (h : ∀ c ∈ t, (c != '.') = true) :
    (t ++ '.' :: rest).takeWhile (fun c => c != '.') = t ∧
    (t ++ '.' :: rest).dropWhile (fun c => c != '.') = '.' :: rest := by
  induction t with
  | nil => constructor <;> simp
  | cons a t ih =>
    have ha := h a (List.mem_cons_self a t)
    have iht := ih (fun c hc => h c (List.mem_cons_of_mem a hc))
    constructor
    · simp only [List.cons_append, List.takeWhile_cons, ha, if_pos, iht.1]
    · simp only [List.cons_append, List.dropWhile_cons, ha, if_pos, iht.2]

/-- Parsing a rendered timestamp recovers the scaled value exactly. -/
theorem parseTimeTok_timeTok (q : ℚ) :
    parseTimeTok (timeTok q) = some ((tScaled q : ℚ) / 10 ^ timePrec) := by
  have hmod : tScaled q % 10 ^ timePrec < 10 ^ timePrec :=
    Nat.mod_lt _ (by norm_num [timePrec])
  have hlen : (padZeros timePrec (natDigits (tScaled q % 10 ^ timePrec))).length = timePrec :=
    padZeros_length (natDigits_length_le hmod (by norm_num [timePrec]))
  have hip_dot : ∀ c ∈ natDigits (tScaled q / 10 ^ timePrec), (c != '.') = true :=
    natDigits_all _ (fun _ hd => digitChar_ne_dot hd)
  have hsplit := takeWhile_append_dot (natDigits (tScaled q / 10 ^ timePrec))
    (padZeros timePrec (natDigits (tScaled q % 10 ^ timePrec))) hip_dot
  have hfp_all : (padZeros timePrec (natDigits (tScaled q % 10 ^ timePrec))).all
      isDigitCh = true := by
    rw [padZeros, List.all_append]
    have hrep : (List.replicate
        (timePrec - (natDigits (tScaled q % 10 ^ timePrec)).length) '0').all
        isDigitCh = true := by
      rw [List.all_eq_true]
      intro c hc
      rw [List.eq_of_mem_replicate hc]
      rfl
    rw [hrep, List.all_eq_true.mpr (natDigits_all _ (fun _ hd => isDigitCh_digitChar hd))]
    rfl
  have hfp_ne : padZeros timePrec (natDigits (tScaled q % 10 ^ timePrec)) ≠ [] := by
    intro hcon
    rw [hcon] at hlen
    norm_num [timePrec] at hlen
  have hPN : parseNat (padZeros timePrec (natDigits (tScaled q % 10 ^ timePrec)))
      = some (tScaled q % 10 ^ timePrec) := by
    rw [parseNat_padZeros _ _ (natDigits_ne_nil _)
      (List.all_eq_true.mpr (natDigits_all _ (fun _ hd => isDigitCh_digitChar hd)))]
    exact parseNat_natDigits _
  unfold parseTimeTok timeTok
  rw [hsplit.2, hsplit.1]
  simp only [List.isEmpty_cons, List.drop_succ_cons, List.drop_zero, Bool.false_eq_true,
    if_false, parseNat_natDigits, hPN, hlen]
  congr 1
  have hD : ((10:ℚ) ^ timePrec) ≠ 0 := by norm_num
  rw [eq_div_iff hD, add_mul, div_mul_cancel₀ _ hD]
  exact_mod_cast Nat.div_add_mod' (tScaled q) (10 ^ timePrec)

/-- The written (rounded) timestamp is within `roundTol` of the original
nonnegative time. -/
theorem tScaled_close {q : ℚ} (hq : 0 ≤ q) :
    absQ ((tScaled q : ℚ) / 10 ^ timePrec - q) ≤ roundTol := by
  have hD : (0:ℚ) < 10 ^ timePrec := by norm_num
  have hx0 : (0:ℚ) ≤ q * 10 ^ timePrec + 1/2 := by positivity
  have hfl : (0:ℤ) ≤ ⌊q * 10 ^ timePrec + 1/2⌋ := Int.floor_nonneg.mpr hx0
  have hcast : ((tScaled q : ℕ) : ℚ) = ((⌊q * 10 ^ timePrec + 1/2⌋ : ℤ) : ℚ) := by
    unfold tScaled
    exact_mod_cast congrArg (fun z : ℤ => (z : ℚ)) (Int.toNat_of_nonneg hfl)
  have h1 : ((⌊q * 10 ^ timePrec + 1/2⌋ : ℤ) : ℚ) ≤ q * 10 ^ timePrec + 1/2 :=
    Int.floor_le _
  have h2 : q * 10 ^ timePrec + 1/2 - 1 < ((⌊q * 10 ^ timePrec + 1/2⌋ : ℤ) : ℚ) :=
    Int.sub_one_lt_floor _
  have hrw : (tScaled q : ℚ) / 10 ^ timePrec - q
      = (((⌊q * 10 ^ timePrec + 1/2⌋ : ℤ) : ℚ) - q * 10 ^ timePrec) / 10 ^ timePrec := by
    rw [hcast]
    field_simp
    ring
  rw [hrw, absQ_div_of_pos _ _ hD, roundTol]
  rw [div_le_div_right hD]
  rw [absQ_le_iff]
  constructor <;> nlinarith

/-- A rendered timestamp is a nonempty token. -/
theorem timeTok_ne_nil (q : ℚ) : timeTok q ≠ [] := by
  unfold timeTok
  intro h
  exact natDigits_ne_nil _ (List.append_eq_nil.mp h).1

/-- A rendered timestamp contains no space. -/
theorem timeTok_no_space (q : ℚ) : ∀ c ∈ timeTok q, c ≠ ' ' := by
  intro c hc
  unfold timeTok at hc
  rw [List.mem_append] at hc
  rcases hc with hc | hc
  · exact natDigits_all (P := fun c => c ≠ ' ') _ (fun _ hd => digitChar_ne_space hd) c hc
  · rw [List.mem_cons] at hc
    rcases hc with rfl | hc
    · decide
    · unfold padZeros at hc
      rw [List.mem_append] at hc
      rcases hc with hc | hc
      · rw [List.eq_of_mem_replicate hc]; decide
      · exact natDigits_all (P := fun c => c ≠ ' ') _ (fun _ hd => digitChar_ne_space hd) c hc

/-- Unfolding equations of the splitter. -/
theorem splitAux_cons_nonspace {a : Char} (ha : a ≠ ' ') (cs acc : List Char) :
    splitAux (a :: cs) acc = splitAux cs (a :: acc) := by
  simp only [splitAux, if_neg ha]

theorem splitAux_space (l acc : List Char) :
    splitAux (' ' :: l) acc
      = if acc.isEmpty then splitAux l [] else acc.reverse :: splitAux l [] := by
  simp [splitAux]

/-- A space-free token is absorbed into the accumulator by the splitter. -/
theorem splitAux_token (t : List Char) (h : ∀ c ∈ t, c ≠ ' ') :
    ∀ (l acc : List Char), splitAux (t ++ l) acc = splitAux l (t.reverse ++ acc) := by
  induction t with
  | nil => intro l acc; rfl
  | cons a ts ih =>
    intro l acc
    have ha := h a (List.mem_cons_self a ts)
    rw [List.cons_append, splitAux_cons_nonspace ha]
    rw [ih (fun c hc => h c (List.mem_cons_of_mem a hc)) l (a :: acc)]
    congr 1
    simp [List.reverse_cons, List.append_assoc]

/-- A single space-free token splits to itself. -/
theorem splitAux_single (t : List Char) (ht : t ≠ []) (hs : ∀ c ∈ t, c ≠ ' ') :
    splitAux t [] = [t] := by
  conv_lhs => rw [← List.append_nil t]
  rw [splitAux_token t hs]
  simp only [splitAux, List.append_nil]
  rcases List.eq_nil_or_concat t with rfl | ⟨v, a, rfl⟩
  · exact absurd rfl ht
  · simp

/-- Splitting a line of three space-free fields joined by single spaces
recovers exactly the three fields. -/
theorem splitFields_three (t1 t2 t3 : List Char)
    (h1 : t1 ≠ []) (h1s : ∀ c ∈ t1, c ≠ ' ')
    (h2 : t2 ≠ []) (h2s : ∀ c ∈ t2, c ≠ ' ')
    (h3 : t3 ≠ []) (h3s : ∀ c ∈ t3, c ≠ ' ') :
    splitFields (t1 ++ (' ' :: (t2 ++ (' ' :: t3)))) = [t1, t2, t3] := by
  have hne : ∀ u : List Char, u ≠ [] → (u.reverse ++ ([] : List Char)).isEmpty = false := by
    intro u hu
    rw [List.append_nil]
    rcases List.eq_nil_or_concat u with rfl | ⟨v, a, rfl⟩
    · exact absurd rfl hu
    · simp
  unfold splitFields
  rw [splitAux_token t1 h1s, splitAux_space, hne t1 h1, List.append_nil, List.reverse_reverse]
  rw [splitAux_token t2 h2s, splitAux_space, hne t2 h2, List.append_nil, List.reverse_reverse]
  rw [splitAux_single t3 h3 h3s]
  simp

/-- Reading back one written pitch-mark line yields the rounded time. -/
theorem readLine_writeLine (t : ℚ) :
    readLine (writeLine t) = .ok ((tScaled t : ℚ) / 10 ^ timePrec) := by
  unfold readLine writeLine
  rw [splitFields_three (timeTok t) (timeTok t) ['V']
    (timeTok_ne_nil t) (timeTok_no_space t) (timeTok_ne_nil t) (timeTok_no_space t)
    (by simp) (by intro c hc; rw [List.mem_singleton] at hc; subst hc; decide)]
  simp only [parseTimeTok_timeTok]

/-- Reading back a written file yields the rounded times in order. -/
theorem read_file_write_file (pms : List ℚ) :
    read_file (write_file pms)
      = .ok (pms.map (fun t => (tScaled t : ℚ) / 10 ^ timePrec)) := by
  induction pms with
  | nil => rfl
  | cons t ts ih =>
    simp only [write_file, List.map_cons] at ih ⊢
    rw [read_file, readLine_writeLine, ih]

/-- C5: writing a pitch-mark sequence and reading the file back succeeds
and yields a sequence with the same number of marks, in input order, each
timestamp within the codec tolerance of the original (pitch-mark times
are nonnegative instants in the waveform). -/
theorem write_read_roundtrip {pms : List ℚ} (hpos : ∀ t ∈ pms, 0 ≤ t) :
    ∃ pms', read_file (write_file pms) = .ok pms' ∧
      pms'.length = pms.length ∧
      ∀ i, i < pms.length → absQ (pms'.getD i 0 - pms.getD i 0) ≤ roundTol := by
  refine ⟨_, read_file_write_file pms, List.length_map _ _, ?_⟩
  intro i hi
  rw [List.getD_eq_getElem _ _ (by simpa using hi), List.getD_eq_getElem _ _ hi,
    List.getElem_map]
  exact tScaled_close (hpos _ (List.getElem_mem hi))

/-- Witness for C5 on a concrete two-mark sequence (a sample-aligned time
and a time with no finite decimal expansion). -/
theorem write_read_roundtrip_w :
    ∃ pms', read_file (write_file [3755/16000, (1:ℚ)/3]) = .ok pms' ∧
      pms'.length = ([3755/16000, (1:ℚ)/3] : List ℚ).length ∧
      ∀ i, i < ([3755/16000, (1:ℚ)/3] : List ℚ).length →
        absQ (pms'.getD i 0 - ([3755/16000, (1:ℚ)/3] : List ℚ).getD i 0) ≤ roundTol :=
  write_read_roundtrip (by
    intro t ht
    rw [List.mem_cons, List.mem_singleton] at ht
    rcases ht with rfl | rfl <;> norm_num)

/-- A well-formed line parses to the time in its first field. -/
theorem readLine_ok_of {l : List Char} (h : lineOK l = true) :
    readLine l = .ok (lineTime l) := by
  unfold lineOK at h
  simp only [Bool.and_eq_true, beq_iff_eq, Option.isSome_iff_exists] at h
  obtain ⟨h3, t, ht⟩ := h
  obtain ⟨f1, f2, f3, hf⟩ := List.length_eq_three.mp h3
  rw [hf] at ht
  simp only [List.headD_cons] at ht
  unfold readLine lineTime
  rw [hf]
  simp only [List.headD_cons, ht, Option.getD_some]

/-- A malformed line raises a FormatError. -/
theorem readLine_err_of {l : List Char} (h : lineOK l = false) :
    ∃ e : FmtErr, readLine l = .error e := by
  by_cases h3 : (splitFields l).length = 3
  · obtain ⟨f1, f2, f3, hf⟩ := List.length_eq_three.mp h3
    have hp : parseTimeTok ((splitFields l).headD []) = none := by
      unfold lineOK at h
      rcases hopt : parseTimeTok ((splitFields l).headD []) with _ | t
      · rfl
      · rw [hopt, h3] at h
        simp at h
    rw [hf] at hp
    simp only [List.headD_cons] at hp
    refine ⟨.badTime, ?_⟩
    unfold readLine
    rw [hf]
    simp only [hp]
  · refine ⟨.badFieldCount, ?_⟩
    unfold readLine
    rcases hsp : splitFields l with _ | ⟨a, _ | ⟨b, _ | ⟨c, _ | ⟨d, rest⟩⟩⟩⟩
    · rfl
    · rfl
    · rfl
    · rw [hsp] at h3
      simp at h3
    · rfl

theorem read_file_cons_err {l : List Char} {ls : List (List Char)} {e : FmtErr}
    (h : readLine l = .error e) : read_file (l :: ls) = .error e := by
  rw [read_file, h]

theorem read_file_cons_ok_ok {l : List Char} {ls : List (List Char)} {t : ℚ}
    {ts : List ℚ} (h1 : readLine l = .ok t) (h2 : read_file ls = .ok ts) :
    read_file (l :: ls) = .ok (t :: ts) := by
  rw [read_file, h1, h2]

theorem read_file_cons_ok_err {l : List Char} {ls : List (List Char)} {t : ℚ}
    {e : FmtErr} (h1 : readLine l = .ok t) (h2 : read_file ls = .error e) :
    read_file (l :: ls) = .error e := by
  rw [read_file, h1, h2]

/-- C8: parsing a pitch-mark file raises a FormatError exactly when some
line fails to split into exactly three whitespace-separated fields or has
a non-numeric first (time) field; on a well-formed file parsing succeeds,
taking each mark's time from the first field of its line. -/
theorem read_file_format (ls : List (List Char)) :
    (isOkE (read_file ls) = true ↔ ∀ l ∈ ls, lineOK l = true) ∧
    ((∀ l ∈ ls, lineOK l = true) → read_file ls = .ok (ls.map lineTime)) := by
  induction ls with
  | nil =>
    exact ⟨⟨fun _ l hl => absurd hl (List.not_mem_nil l), fun _ => rfl⟩, fun _ => rfl⟩
  | cons l ls ih =>
    have hmain : isOkE (read_file (l :: ls)) = true ↔
        (lineOK l = true ∧ ∀ x ∈ ls, lineOK x = true) := by
      constructor
      · intro hok
        cases hL : lineOK l with
        | false =>
          obtain ⟨e, he⟩ := readLine_err_of hL
          rw [read_file_cons_err he] at hok
          exact absurd hok (by simp [isOkE])
        | true =>
          refine ⟨rfl, ih.1.mp ?_⟩
          cases hf : read_file ls with
          | ok ts => simp [isOkE]
          | error e =>
            rw [read_file_cons_ok_err (readLine_ok_of hL) hf] at hok
            exact absurd hok (by simp [isOkE])
      · rintro ⟨hL, hls⟩
        rw [read_file_cons_ok_ok (readLine_ok_of hL) (ih.2 hls)]
        rfl
    refine ⟨?_, ?_⟩
    · rw [List.forall_mem_cons]
      exact hmain
    · intro hall
      rw [List.forall_mem_cons] at hall
      rw [read_file_cons_ok_ok (readLine_ok_of hall.1) (ih.2 hall.2), List.map_cons]

/-- Witness for C8: a concrete well-formed one-line file parses to the
time of its first field. -/
theorem read_file_format_w :
    read_file [['1', ' ', '2', ' ', 'V']]
      = .ok ([['1', ' ', '2', ' ', 'V']].map lineTime) :=
  (read_file_format [['1', ' ', '2', ' ', 'V']]).2 (by with_unfolding_all decide)

/-- C7: for every utterance the frame tensor and the label sequence
produced by `prep4input` have exactly `n_timesteps` timesteps after
padding/truncation, regardless of the original waveform length. -/
theorem prep4input_length (wav : List ℤ) (gt : List ℚ) :
    (prep4input wav gt).1.length = n_timesteps ∧
    (prep4input wav gt).2.length = n_timesteps := by
  have h : ∀ (α : Type) (pad : α) (l : List α),
      (padTrunc pad n_timesteps l).length = n_timesteps := by
    intro α pad l
    simp only [padTrunc, List.length_append, List.length_take, List.length_replicate]
    omega
  exact ⟨h _ _ _, h _ _ _⟩

/-- C9: compiling with any optimizer name other than `adam` fails at the
dictionary lookup (the fail-fast configuration error) before any training
happens, while the name `adam` yields the Adam optimizer constructed with
the configured learning rate. -/
theorem optimizer_config (name : String) (h : name ≠ "adam") :
    lookupOpt name learning_rate = none ∧ compileAndFit name learning_rate = none ∧
    lookupOpt "adam" learning_rate = some (Optimizer.adam learning_rate) := by
  have hb : (name == "adam") = false := beq_eq_false_iff_ne.mpr h
  have hl : lookupOpt name learning_rate = none := by
    simp [lookupOpt, optTable, List.lookup, hb]
  exact ⟨hl, by simp [compileAndFit, hl], by simp [lookupOpt, optTable, List.lookup]⟩

/-- Witness for C9 at the concrete non-existent optimizer name `sgd`. -/
theorem optimizer_config_w :
    lookupOpt "sgd" learning_rate = none ∧ compileAndFit "sgd" learning_rate = none ∧
    lookupOpt "adam" learning_rate = some (Optimizer.adam learning_rate) :=
  optimizer_config "sgd" (by decide)

/-- C10: every pitch-mark time returned by detection is an integer number
of samples over the sampling frequency — the sync-interval refinement
lands on an exact waveform sample position. -/
theorem detect_times_sample_aligned (wav : List ℤ) (probs : List ℚ) (t : ℚ)
    (h : t ∈ detect_times wav probs) : ∃ k : ℕ, t = (k : ℚ) / (freq_samp : ℚ) := by
  unfold detect_times at h
  obtain ⟨i, _, rfl⟩ := List.mem_map.mp h
  exact ⟨refineGCI wav (i * hopSamples + winSamples / 2), rfl⟩

/-- Witness for C10: a one-frame detection on a silent waveform lands on
sample 48, i.e. 0.003 s. -/
theorem detect_times_sample_aligned_w :
    ∃ k : ℕ, ((3:ℚ)/1000) = (k : ℚ) / (freq_samp : ℚ) :=
  detect_times_sample_aligned [] [1] (3/1000)
    (by set_option maxRecDepth 100000 in with_unfolding_all decide)

end GCI
